import Mathlib

/-!
Shallow embedding of the backtest core of the quant-trading-platform
repository (src/backend/strategies/basic.py, momentum.py, value.py and
src/backend/data/process.py), together with proofs settling the frozen
claims about it.

Numeric model: Python floats are modelled as exact rationals (ℚ).
Python `int(x)` truncates toward zero.  A Python float division by zero
raises ZeroDivisionError; functions in process.py where the source can
hit such a division are embedded with an `Option` result (`none` = the
exception).  Trade dates are modelled as natural numbers: for valid
YYYYMMDD strings the string sort order used by the source coincides with
chronological order, and the elapsed-day arithmetic the source performs
via strptime is subtraction on day numbers.
-/

/-- Python `int()` applied to a float: truncation toward zero. -/
def pyInt (q : ℚ) : ℤ := if 0 ≤ q then ⌊q⌋ else ⌈q⌉

/-- One row of an instrument's DataFrame; only the columns the strategies
read are kept.  `pe`/`pb` are `none` when the column is absent (the value
strategy then falls back to its seeded pseudo values). -/
structure Bar where
  trade_date : ℕ
  close : ℚ
  pe : Option ℚ
  pb : Option ℚ

/-- The `{ts_code: dataframe}` mapping handed to `run_backtest`, as an
insertion-ordered association list (Python dict iteration order). -/
abbrev PriceData := List (String × List Bar)

/-- `df[df['trade_date'] == date]`. -/
def barsOn (df : List Bar) (d : ℕ) : List Bar :=
  df.filter (fun b => b.trade_date = d)

/-- `df[df['trade_date'] <= date]`. -/
def histTo (df : List Bar) (d : ℕ) : List Bar :=
  df.filter (fun b => b.trade_date ≤ d)

/-- Collapse consecutive duplicates of a (sorted) list. -/
def uniqSorted : List ℕ → List ℕ
  | [] => []
  | [x] => [x]
  | x :: y :: rest =>
    if x = y then uniqSorted (y :: rest) else x :: uniqSorted (y :: rest)

/-- `sorted(list(set(dates)))` over every instrument's `trade_date` column. -/
def allDates (data : PriceData) : List ℕ :=
  uniqSorted ((data.foldl (fun acc p => acc ++ p.2.map Bar.trade_date) []).mergeSort
    (fun a b => a ≤ b))

/-- Close price of instrument `c` on date `d` (`daily_data.iloc[0]['close']`),
`none` when the instrument has no row on that date. -/
def dailyClose (data : PriceData) (c : String) (d : ℕ) : Option ℚ :=
  ((barsOn ((data.lookup c).getD []) d).head?).map Bar.close

/-- Rolling simple moving average of window `w` at row index `i`
(`df['close'].rolling(window=w).mean()`): defined only once `w` rows are
available, mirroring the NaN prefix pandas produces. -/
def rollingMean (w : ℕ) (closes : List ℚ) (i : ℕ) : Option ℚ :=
  if 1 ≤ w ∧ w ≤ i + 1 ∧ i < closes.length then
    some (((closes.take (i + 1)).drop (i + 1 - w)).sum / w)
  else none

/-- Comparison of two possibly-NaN values: pandas comparisons involving
NaN are false, so an undefined moving average never fires a signal. -/
def optLt (x y : Option ℚ) : Prop :=
  match x, y with
  | some a, some b => a < b
  | _, _ => False

instance instDecidableOptLt : (x y : Option ℚ) → Decidable (optLt x y)
  | some a, some b => inferInstanceAs (Decidable (a < b))
  | none, none => isFalse (fun h => h)
  | none, some _ => isFalse (fun h => h)
  | some _, none => isFalse (fun h => h)

/-- Signal of `MACrossStrategy.calculate_signals` at row `i`: 1 when the
fast MA moves from strictly below to strictly above the slow MA between
rows `i-1` and `i`, -1 in the symmetric case, 0 otherwise (rows 0 and all
rows with an undefined MA keep the initialised 0). -/
def maSignalAt (fast slow : ℕ) (closes : List ℚ) (i : ℕ) : ℤ :=
  if i = 0 then 0
  else
    let fp := rollingMean fast closes (i - 1)
    let sp := rollingMean slow closes (i - 1)
    let fc := rollingMean fast closes i
    let sc := rollingMean slow closes i
    if optLt fp sp ∧ optLt sc fc then 1
    else if optLt sp fp ∧ optLt fc sc then -1
    else 0

/-- Cash balance plus per-instrument share counts: the mutable state of
one `run_backtest` invocation. -/
structure SimState where
  cash : ℚ
  positions : List (String × ℤ)

/-- `positions[ts_code] += n` with the `if ts_code in positions` guard of
the source (insert at the end when absent, Python dict order). -/
def addPos (ps : List (String × ℤ)) (c : String) (n : ℤ) : List (String × ℤ) :=
  if ps.any (fun p => p.1 = c) then
    ps.map (fun p => if p.1 = c then (p.1, p.2 + n) else p)
  else ps ++ [(c, n)]

/-- `positions[ts_code] = 0` for an existing key. -/
def zeroPos (ps : List (String × ℤ)) (c : String) : List (String × ℤ) :=
  ps.map (fun p => if p.1 = c then (p.1, 0) else p)

/-- `int(budget / (price * (1 + commission)) / 100) * 100`, the whole-lot
share count every buy in the three strategies computes. -/
def maxShares100 (budget price comm : ℚ) : ℤ :=
  pyInt (budget / (price * (1 + comm)) / 100) * 100

inductive TxnAct
  | buyAct
  | sellAct
deriving DecidableEq

/-- One entry of the `transactions` log. -/
structure Txn where
  date : ℕ
  code : String
  act : TxnAct
  price : ℚ
  volume : ℤ
  amount : ℚ
  fee : ℚ

/-- The buy/sell arm of `MACrossStrategy.run_backtest` for one instrument
on one date, given the freshly computed signal and the day's close. -/
def maTrade (comm : ℚ) (d : ℕ) (code : String) (sig : ℤ) (price : ℚ)
    (st : SimState) : SimState × List Txn :=
  if sig = 1 ∧ 0 < st.cash then
    let ms := maxShares100 (st.cash * (95 / 100)) price comm
    if 0 < ms then
      (⟨st.cash - ms * price * (1 + comm), addPos st.positions code ms⟩,
       [⟨d, code, .buyAct, price, ms, ms * price, ms * price * comm⟩])
    else (st, [])
  else
    if sig = -1 ∧ 0 < ((st.positions.lookup code).getD 0) ∧
        (st.positions.lookup code).isSome then
      let s := (st.positions.lookup code).getD 0
      (⟨st.cash + s * price * (1 - comm), zeroPos st.positions code⟩,
       [⟨d, code, .sellAct, price, s, s * price, s * price * comm⟩])
    else (st, [])

/-- Inner loop body of the MA-cross backtest: one instrument on one date. -/
def maInstrStep (fast slow : ℕ) (comm : ℚ) (d : ℕ)
    (acc : SimState × List Txn) (p : String × List Bar) : SimState × List Txn :=
  match (barsOn p.2 d).head? with
  | none => acc
  | some bar =>
    let hist := histTo p.2 d
    if hist.isEmpty then acc
    else
      let sig := maSignalAt fast slow (hist.map Bar.close) (hist.length - 1)
      let r := maTrade comm d p.1 sig bar.close acc.1
      (r.1, acc.2 ++ r.2)

structure EquityPoint where
  date : ℕ
  value : ℚ

structure PosEntry where
  code : String
  shares : ℤ
  price : ℚ
  value : ℚ

structure PosSnapshot where
  date : ℕ
  cash : ℚ
  positions : List PosEntry

/-- The fields of a successful `run_backtest` result.  The
`annualized_return` key of the Python dict is the derived quantity
`annualizedReturn r.total_return r.returns.length` (it needs real
exponentiation, so it is kept out of the rational record). -/
structure BTOk where
  initial_capital : ℚ
  final_capital : ℚ
  returns : List EquityPoint
  positions : List PosSnapshot
  transactions : List Txn
  total_return : ℚ

/-- A `run_backtest` result: either the lone-`error`-key dict or the full
result record. -/
inductive BTResult
  | err (msg : String)
  | ok (r : BTOk)

/-- `((1 + total_return/100) ** (252/days) - 1) * 100` when `days > 1`. -/
noncomputable def annualizedReturn (totalReturn : ℚ) (days : ℕ) : ℝ :=
  if 1 < days then ((1 + (totalReturn : ℝ) / 100) ^ ((252 : ℝ) / days) - 1) * 100
  else totalReturn

/-- `cash + Σ shares*close` over held (>0) positions with a row on `d`. -/
def portfolioValue (data : PriceData) (d : ℕ) (st : SimState) : ℚ :=
  st.positions.foldl
    (fun (acc : ℚ) (p : String × ℤ) =>
      if 0 < p.2 then
        match dailyClose data p.1 d with
        | some pr => acc + (p.2 : ℚ) * pr
        | none => acc
      else acc)
    st.cash

/-- One step of the per-date `current_positions` recording loop. -/
def snapStep (data : PriceData) (d : ℕ) (acc : List PosEntry)
    (p : String × ℤ) : List PosEntry :=
  if 0 < p.2 then
    match dailyClose data p.1 d with
    | some pr => acc ++ [⟨p.1, p.2, pr, (p.2 : ℚ) * pr⟩]
    | none => acc
  else acc

/-- The per-date `current_positions` list recorded in the snapshot. -/
def snapshotEntries (data : PriceData) (d : ℕ) (ps : List (String × ℤ)) :
    List PosEntry :=
  ps.foldl (snapStep data d) []

/-- Accumulator of the date loop: state plus the three result lists. -/
structure RunAcc where
  st : SimState
  equity : List EquityPoint
  snaps : List PosSnapshot
  txns : List Txn

/-- One date of `MACrossStrategy.run_backtest`. -/
def maDay (fast slow : ℕ) (comm : ℚ) (data : PriceData) (acc : RunAcc)
    (d : ℕ) : RunAcc :=
  let r := data.foldl (maInstrStep fast slow comm d) (acc.st, [])
  { st := r.1
    equity := acc.equity ++ [⟨d, portfolioValue data d r.1⟩]
    snaps := acc.snaps ++ [⟨d, r.1.cash, snapshotEntries data d r.1.positions⟩]
    txns := acc.txns ++ r.2 }

def errNoData : String := "没有提供数据"

/-- `MACrossStrategy.run_backtest`. -/
def maRunBacktest (fast slow : ℕ) (data : PriceData) (cap comm : ℚ) : BTResult :=
  if data.isEmpty then .err errNoData
  else
    let acc := (allDates data).foldl (maDay fast slow comm data) ⟨⟨cap, []⟩, [], [], []⟩
    let fc := match acc.equity.getLast? with
      | some e => e.value
      | none => cap
    .ok ⟨cap, fc, acc.equity, acc.snaps, acc.txns, (fc - cap) / cap * 100⟩

/-- `MomentumStrategy.calculate_momentum`: percent change across the last
`lookback` rows (0 when fewer rows are available).  `iloc[-0:]` in Python
is the whole frame, hence the `lookback = 0` arm. -/
def calculateMomentum (lookback : ℕ) (df : List Bar) : ℚ :=
  if df.length < lookback then 0
  else
    let lb := if lookback = 0 then df else df.drop (df.length - lookback)
    match lb.head?, lb.getLast? with
    | some s, some e => (e.close - s.close) / s.close * 100
    | _, _ => 0

/-- Every instrument has at least `lookback` rows dated ≤ `d`. -/
def sufficientOn (lookback : ℕ) (data : PriceData) (d : ℕ) : Bool :=
  data.all (fun p => lookback ≤ (histTo p.2 d).length)

/-- The `start_date` search of `MomentumStrategy.run_backtest`: the first
date of the unified axis on which every instrument has enough history
(`none` reproduces the for-else arm returning the error dict). -/
def findStartDate (lookback : ℕ) (data : PriceData) : Option ℕ :=
  (allDates data).find? (sufficientOn lookback data)

/-- `MomentumStrategy.select_stocks`: instruments with enough history,
ranked by momentum descending (stable, mirroring Python's stable sort
with reverse=True), truncated to `top_n`. -/
def momSelect (lookback topn : ℕ) (data : PriceData) (d : ℕ) : List String :=
  let scores := data.filterMap (fun p =>
    let hist := histTo p.2 d
    if lookback ≤ hist.length then some (p.1, calculateMomentum lookback hist)
    else none)
  ((scores.mergeSort (fun a b => b.2 ≤ a.2)).map Prod.fst).take topn

/-- Rebalance sell loop: liquidate every held position that has a row on
`d`.  The iteration is over the `list(positions.items())` snapshot taken
before the loop, as in the source. -/
def sellAll (comm : ℚ) (data : PriceData) (d : ℕ) :
    SimState × List Txn → List (String × ℤ) → SimState × List Txn
  | acc, [] => acc
  | acc, (c, s) :: rest =>
    if 0 < s then
      match dailyClose data c d with
      | some pr =>
        sellAll comm data d
          (⟨acc.1.cash + s * pr * (1 - comm), zeroPos acc.1.positions c⟩,
           acc.2 ++ [⟨d, c, .sellAct, pr, s, s * pr, s * pr * comm⟩]) rest
      | none => sellAll comm data d acc rest
    else sellAll comm data d acc rest

/-- Rebalance buy loop over the selected instruments, each budgeted with
`per_stock_capital * 0.99` (the capital split is fixed before the loop). -/
def buyList (comm per : ℚ) (data : PriceData) (d : ℕ) :
    SimState × List Txn → List String → SimState × List Txn
  | acc, [] => acc
  | acc, c :: rest =>
    match dailyClose data c d with
    | none => buyList comm per data d acc rest
    | some pr =>
      let ms := maxShares100 (per * (99 / 100)) pr comm
      if 0 < ms then
        buyList comm per data d
          (⟨acc.1.cash - ms * pr * (1 + comm), addPos acc.1.positions c ms⟩,
           acc.2 ++ [⟨d, c, .buyAct, pr, ms, ms * pr, ms * pr * comm⟩]) rest
      else buyList comm per data d acc rest

/-- One rebalance of the momentum/value loops: sell everything, then split
the remaining cash evenly over `selected` and buy each. -/
def rebalanceStep (comm : ℚ) (data : PriceData) (d : ℕ) (selected : List String)
    (st : SimState) : SimState × List Txn :=
  let r := sellAll comm data d (st, []) st.positions
  if selected.isEmpty then r
  else
    let per := r.1.cash / (selected.length : ℚ)
    buyList comm per data d r selected

/-- Rebalance trigger: no rebalance yet, or at least `period` elapsed
days since the last one ((current - last).days ≥ period). -/
def needRebalance (period : ℕ) (lastReb : Option ℕ) (d : ℕ) : Prop :=
  match lastReb with
  | none => True
  | some l => (period : ℤ) ≤ (d : ℤ) - (l : ℤ)

instance instDecidableNeedRebalance (period : ℕ) (lastReb : Option ℕ) (d : ℕ) :
    Decidable (needRebalance period lastReb d) :=
  match lastReb with
  | none => isTrue trivial
  | some l => inferInstanceAs (Decidable ((period : ℤ) ≤ (d : ℤ) - (l : ℤ)))

/-- Date-loop accumulator of the rebalancing strategies: additionally
tracks `last_rebalance_date`. -/
structure RebAcc where
  st : SimState
  lastReb : Option ℕ
  equity : List EquityPoint
  snaps : List PosSnapshot
  txns : List Txn

/-- One date of the momentum/value date loop, given the stock selection
function of the variant. -/
def rebDay (period : ℕ) (comm : ℚ) (data : PriceData) (select : ℕ → List String)
    (acc : RebAcc) (d : ℕ) : RebAcc :=
  let r :=
    if needRebalance period acc.lastReb d then
      let s := rebalanceStep comm data d (select d) acc.st
      (s.1, s.2, some d)
    else (acc.st, ([] : List Txn), acc.lastReb)
  { st := r.1
    lastReb := r.2.2
    equity := acc.equity ++ [⟨d, portfolioValue data d r.1⟩]
    snaps := acc.snaps ++ [⟨d, r.1.cash, snapshotEntries data d r.1.positions⟩]
    txns := acc.txns ++ r.2.1 }

/-- One date of `MomentumStrategy.run_backtest`: dates before the start
date are skipped entirely (`continue`). -/
def momDay (lookback topn holding : ℕ) (comm : ℚ) (data : PriceData) (d0 : ℕ)
    (acc : RebAcc) (d : ℕ) : RebAcc :=
  if d < d0 then acc
  else rebDay holding comm data (momSelect lookback topn data) acc d

def errInsufficient : String := "没有足够的历史数据进行回溯"

/-- Package a finished rebalancing date loop into the result record. -/
def finishRun (cap : ℚ) (acc : RebAcc) : BTResult :=
  let fc := match acc.equity.getLast? with
    | some e => e.value
    | none => cap
  .ok ⟨cap, fc, acc.equity, acc.snaps, acc.txns, (fc - cap) / cap * 100⟩

/-- `MomentumStrategy.run_backtest`. -/
def momRunBacktest (lookback topn holding : ℕ) (data : PriceData)
    (cap comm : ℚ) : BTResult :=
  if data.isEmpty then .err errNoData
  else
    match findStartDate lookback data with
    | none => .err errInsufficient
    | some d0 =>
      finishRun cap
        ((allDates data).foldl (momDay lookback topn holding comm data d0)
          ⟨⟨cap, []⟩, none, [], [], []⟩)

/-- `ValueStrategy.select_stocks`.  `peFallback`/`pbFallback` stand for
the np.random values the source derives from a seed built out of the
ts_code when the data carries no pe/pb column; the claims hold for every
choice of these functions. -/
def valSelect (maxPe maxPb : ℚ) (peFallback pbFallback : String → ℚ)
    (data : PriceData) (d : ℕ) : List String :=
  data.filterMap (fun p =>
    match (barsOn p.2 d).head? with
    | none => none
    | some bar =>
      let pe := bar.pe.getD (peFallback p.1)
      let pb := bar.pb.getD (pbFallback p.1)
      if pe ≤ maxPe ∧ pb ≤ maxPb then some p.1 else none)

/-- `ValueStrategy.run_backtest`. -/
def valRunBacktest (maxPe maxPb : ℚ) (peFallback pbFallback : String → ℚ)
    (period : ℕ) (data : PriceData) (cap comm : ℚ) : BTResult :=
  if data.isEmpty then .err errNoData
  else
    finishRun cap
      ((allDates data).foldl
        (rebDay period comm data (valSelect maxPe maxPb peFallback pbFallback data))
        ⟨⟨cap, []⟩, none, [], [], []⟩)

/-- `calculate_returns` from process.py.  `none` models the
ZeroDivisionError the source raises when the first price is 0 (every loop
iteration divides by `base_price`). -/
def calculateReturns (prices : List ℚ) : Option (List ℚ) :=
  if prices.length < 2 then some []
  else
    match prices with
    | [] => some []
    | base :: _ =>
      if base = 0 then none
      else some (prices.map (fun p => (p - base) / base * 100))

/-- The drawdown loop of `calculate_drawdowns`: running maximum seeded
with the first price, `none` when a running maximum of 0 would make the
source divide by zero. -/
def drawdownLoop (maxP : ℚ) : List ℚ → Option (List ℚ)
  | [] => some []
  | p :: rest =>
    let m := max maxP p
    if m = 0 then none
    else
      match drawdownLoop m rest with
      | none => none
      | some l => some (((p - m) / m * 100) :: l)

/-- `calculate_drawdowns` from process.py. -/
def calculateDrawdowns (prices : List ℚ) : Option (List ℚ) :=
  if prices.length < 2 then some []
  else
    match prices with
    | [] => some []
    | p0 :: _ => drawdownLoop p0 prices

/-- Population variance, so that `Real.sqrt` of it is `np.std`. -/
def varPop (l : List ℚ) : ℚ :=
  if l.length = 0 then 0
  else
    let m := l.sum / (l.length : ℚ)
    ((l.map (fun x => (x - m) ^ 2)).sum) / (l.length : ℚ)

/-- The `daily_returns` loop of `calculate_performance_metrics`:
`(returns[i] - returns[i-1]) / (1 + returns[i-1]/100)` for consecutive i,
`none` when a previous return of -100 makes the source divide by zero. -/
def dailyLoop (prev : ℚ) : List ℚ → Option (List ℚ)
  | [] => some []
  | x :: xs =>
    if 1 + prev / 100 = 0 then none
    else
      match dailyLoop x xs with
      | none => none
      | some l => some (((x - prev) / (1 + prev / 100)) :: l)

def pyDailyReturns : List ℚ → Option (List ℚ)
  | [] => some []
  | x :: xs => dailyLoop x xs

/-- The drawdown loop inside `calculate_performance_metrics` (running max
of the returns series, each point normalised by `1 + max/100`). -/
def mddLoop (maxR : ℚ) : List ℚ → Option (List ℚ)
  | [] => some []
  | r :: rest =>
    let m := max maxR r
    if 1 + m / 100 = 0 then none
    else
      match mddLoop m rest with
      | none => none
      | some l => some (((r - m) / (1 + m / 100) * 100) :: l)

def pyMddList : List ℚ → Option (List ℚ)
  | [] => some []
  | r0 :: _rest => mddLoop r0 (r0 :: _rest)

/-- `min(drawdowns)` (`0` for an empty list, matching the source guard). -/
def listMin : List ℚ → ℚ
  | [] => 0
  | x :: xs => xs.foldl min x

/-- Number of days the strategy return beats the benchmark return. -/
def winCount (r b : List ℚ) : ℕ :=
  (r.zip b).countP (fun p => decide (p.2 < p.1))

/-- `calculate_performance_metrics` from process.py, as the ordered list
of dict entries.  The result is `none` exactly when the source raises a
ZeroDivisionError.  Exponentiation with a fractional exponent and square
roots force ℝ-valued entries. -/
noncomputable def calcPerformanceMetrics (returns : List ℚ)
    (benchmark : Option (List ℚ)) : Option (List (String × ℝ)) :=
  if returns.length < 2 then some []
  else
    let days := returns.length
    let lastR := returns.getLast?.getD 0
    let totalReturn : ℝ := (lastR : ℚ)
    let annualized : ℝ :=
      if 1 < days then ((1 + (lastR : ℝ) / 100) ^ ((252 : ℝ) / days) - 1) * 100
      else totalReturn
    match pyDailyReturns returns with
    | none => none
    | some dr =>
      let vol : ℝ :=
        if dr.length ≠ 0 then Real.sqrt ((varPop dr : ℚ) : ℝ) * Real.sqrt 252 * 100
        else 0
      let sharpe : ℝ := if 0 < vol then annualized / vol else 0
      match pyMddList returns with
      | none => none
      | some dds =>
        let core : List (String × ℝ) :=
          [("total_return", totalReturn), ("annualized_return", annualized),
           ("volatility", vol), ("sharpe_ratio", sharpe),
           ("max_drawdown", ((listMin dds : ℚ) : ℝ))]
        match benchmark with
        | none => some core
        | some b =>
          if b.length ≠ 0 ∧ b.length = returns.length then
            let blast := b.getLast?.getD 0
            let excess : ℝ := ((lastR - blast : ℚ) : ℝ)
            let annExcess : ℝ :=
              annualized -
                (if 1 < days then
                  ((1 + (blast : ℝ) / 100) ^ ((252 : ℝ) / days) - 1) * 100
                else (blast : ℚ))
            let ir : ℝ := if 0 < vol then annExcess / vol else 0
            let wr : ℝ := ((winCount returns b : ℚ) / (returns.length : ℚ) * 100 : ℚ)
            some (core ++
              [("excess_return", excess), ("annualized_excess_return", annExcess),
               ("information_ratio", ir), ("win_rate", wr)])
          else some core

/-- Value of one metric key of a `calculate_performance_metrics` result. -/
noncomputable def getMetric (m : Option (List (String × ℝ))) (k : String) :
    Option ℝ :=
  m.bind (fun l => l.lookup k)

/-- Modelled from the spec sentence for the volatility metric: standard
deviation of the PLAIN day-over-day delta of the returns series,
annualized by √252, expressed as a percent. -/
noncomputable def volatilitySpec (returns : List ℚ) : ℝ :=
  Real.sqrt ((varPop (List.zipWith (fun a b => a - b) returns.tail returns) : ℚ) : ℝ) *
    Real.sqrt 252 * 100

/-- Every recorded position snapshot carries non-negative cash. -/
def snapsCashOk : BTResult → Prop
  | .err _ => True
  | .ok r => ∀ s ∈ r.positions, 0 ≤ s.cash

/-- Every share count in every recorded snapshot is a non-negative
multiple of 100. -/
def snapsLotsOk : BTResult → Prop
  | .err _ => True
  | .ok r => ∀ s ∈ r.positions, ∀ e ∈ s.positions, 0 ≤ e.shares ∧ e.shares % 100 = 0

/-- The run produced a full result and none of its transactions predates
`d0`. -/
def momOkAfter (res : BTResult) (d0 : ℕ) : Prop :=
  ∃ r, res = .ok r ∧ ∀ t ∈ r.transactions, d0 ≤ t.date

/-- All close prices in the input are positive. -/
def closesPos (data : PriceData) : Prop :=
  ∀ p ∈ data, ∀ b ∈ p.2, 0 < b.close

/-- Invariant of a positions mapping: non-negative lot multiples. -/
def posOk (ps : List (String × ℤ)) : Prop :=
  ∀ q ∈ ps, 0 ≤ q.2 ∧ q.2 % 100 = 0

/-- Invariant of the running simulation state. -/
def stateOk (st : SimState) : Prop := 0 ≤ st.cash ∧ posOk st.positions

/-- Invariant carried along the MA-cross date loop for the cash claim. -/
def runAccCash (acc : RunAcc) : Prop :=
  stateOk acc.st ∧ ∀ s ∈ acc.snaps, 0 ≤ s.cash

/-- Invariant carried along the MA-cross date loop for the lot claim. -/
def runAccLots (acc : RunAcc) : Prop :=
  posOk acc.st.positions ∧
    ∀ s ∈ acc.snaps, ∀ e ∈ s.positions, 0 ≤ e.shares ∧ e.shares % 100 = 0

/-- Invariant carried along the rebalancing date loop for the cash claim. -/
def rebAccCash (acc : RebAcc) : Prop :=
  stateOk acc.st ∧ ∀ s ∈ acc.snaps, 0 ≤ s.cash

/-- Invariant carried along the rebalancing date loop for the lot claim. -/
def rebAccLots (acc : RebAcc) : Prop :=
  posOk acc.st.positions ∧
    ∀ s ∈ acc.snaps, ∀ e ∈ s.positions, 0 ≤ e.shares ∧ e.shares % 100 = 0

/-- No transaction recorded so far predates `d0`. -/
def rebAccTxLater (d0 : ℕ) (acc : RebAcc) : Prop :=
  ∀ t ∈ acc.txns, d0 ≤ t.date

/-- Tiny single-instrument data set used by witnesses. -/
def wData : PriceData := [("A", [⟨0, 10, none, none⟩])]

/-- Tiny data set starting at date 5, used by the momentum witness. -/
def wData4 : PriceData := [("B", [⟨5, 10, none, none⟩])]

/-- Modelled from the spec wording for the MA-cross signal: BUY when the
fast MA crosses from ≤ to > the slow MA between bars i-1 and i, SELL when
it crosses from ≥ to <.  Kept separate from `maSignalAt` (the source uses
strict comparisons on bar i-1) so the two can be compared. -/
def maSignalSpec (fast slow : ℕ) (closes : List ℚ) (i : ℕ) : ℤ :=
  if i = 0 then 0
  else
    match rollingMean fast closes (i - 1), rollingMean slow closes (i - 1),
        rollingMean fast closes i, rollingMean slow closes i with
    | some a, some b, some c, some d =>
      if a ≤ b ∧ d < c then 1
      else if b ≤ a ∧ c < d then -1
      else 0
    | _, _, _, _ => 0

/-- Four bars of one instrument: golden cross at date 2 (buy at 20), then
a negative close at date 3 forces a death cross and a sale at -100. -/
def cexData : PriceData :=
  [("X", [⟨0, 10, none, none⟩, ⟨1, 5, none, none⟩, ⟨2, 20, none, none⟩,
    ⟨3, -100, none, none⟩])]

/-- Cash column of the recorded position snapshots. -/
def snapCashList : BTResult → List ℚ
  | .err _ => []
  | .ok r => r.positions.map PosSnapshot.cash

@[simp] theorem optLt_some_some (a b : ℚ) : optLt (some a) (some b) ↔ a < b := Iff.rfl

@[simp] theorem optLt_none_left (y : Option ℚ) : ¬ optLt none y := fun h => nomatch y, h

@[simp] theorem optLt_none_right (x : Option ℚ) : ¬ optLt x none := by
  cases x <;> exact fun h => h

theorem pyInt_nonneg {q : ℚ} (h : 0 ≤ q) : 0 ≤ pyInt q := by
  simp only [pyInt, if_pos h]
  exact Int.floor_nonneg.mpr h

theorem pyInt_le {q : ℚ} (h : 0 ≤ q) : (pyInt q : ℚ) ≤ q := by
  simp only [pyInt, if_pos h]
  exact Int.floor_le q

theorem maxShares100_mod (b p c : ℚ) : maxShares100 b p c % 100 = 0 :=
  Int.mul_emod_left _ _

theorem maxShares100_cost_le {b p c : ℚ} (hb : 0 ≤ b) (hp : 0 < p) (hc : 0 ≤ c) :
    (maxShares100 b p c : ℚ) * (p * (1 + c)) ≤ b := by
  have hpc : 0 < p * (1 + c) := mul_pos hp (by linarith)
  have hx : 0 ≤ b / (p * (1 + c)) := div_nonneg hb hpc.le
  have h2 : (pyInt (b / (p * (1 + c)) / 100) : ℚ) ≤ b / (p * (1 + c)) / 100 :=
    pyInt_le (by positivity)
  have h3 : (maxShares100 b p c : ℚ) ≤ b / (p * (1 + c)) := by
    unfold maxShares100
    push_cast
    linarith
  calc (maxShares100 b p c : ℚ) * (p * (1 + c))
      ≤ b / (p * (1 + c)) * (p * (1 + c)) :=
        mul_le_mul_of_nonneg_right h3 hpc.le
    _ = b := div_mul_cancel₀ b hpc.ne'

theorem posOk_nil : posOk [] := by
  intro q hq
  simp at hq

theorem posOk_addPos {ps : List (String × ℤ)} {c : String} {n : ℤ}
    (h : posOk ps) (hn : 0 ≤ n) (hm : n % 100 = 0) : posOk (addPos ps c n) := by
  unfold addPos
  split
  · intro q hq
    simp only [List.mem_map] at hq
    obtain ⟨a, ha, rfl⟩ := hq
    have := h a ha
    split <;> simp <;> omega
  · intro q hq
    rcases List.mem_append.mp hq with h1 | h2
    · exact h q h1
    · simp at h2
      rw [h2]
      exact ⟨hn, hm⟩

theorem posOk_zeroPos {ps : List (String × ℤ)} {c : String}
    (h : posOk ps) : posOk (zeroPos ps c) := by
  intro q hq
  simp only [zeroPos, List.mem_map] at hq
  obtain ⟨a, ha, rfl⟩ := hq
  have := h a ha
  split
  all_goals simp
  all_goals omega

theorem posOk_lookup : ∀ {ps : List (String × ℤ)} {c : String} {s : ℤ},
    posOk ps → ps.lookup c = some s → 0 ≤ s ∧ s % 100 = 0 := by
  intro ps
  induction ps with
  | nil => intro c s _ hl; simp [List.lookup] at hl
  | cons hd tl ih =>
    intro c s h hl
    rw [List.lookup] at hl
    by_cases hck : (c == hd.1)
    · rw [hck] at hl
      simp at hl
      have := h hd (List.mem_cons_self _ _)
      exact hl ▸ this
    · rw [Bool.not_eq_true] at hck
      rw [hck] at hl
      exact ih (fun q hq => h q (List.mem_cons_of_mem _ hq)) hl

theorem mem_of_lookup : ∀ {l : List (String × List Bar)} {c : String} {v : List Bar},
    l.lookup c = some v → ∃ k, (k, v) ∈ l := by
  intro l
  induction l with
  | nil => intro c v hl; simp [List.lookup] at hl
  | cons hd tl ih =>
    intro c v hl
    rw [List.lookup] at hl
    by_cases hck : (c == hd.1)
    · rw [hck] at hl
      simp at hl
      refine ⟨hd.1, ?_⟩
      rw [← hl]
      exact List.mem_cons_self _ _
    · rw [Bool.not_eq_true] at hck
      rw [hck] at hl
      obtain ⟨k, hk⟩ := ih hl
      exact ⟨k, List.mem_cons_of_mem _ hk⟩

theorem head?_filter_mem {l : List Bar} {f : Bar → Bool} {b : Bar}
    (h : (l.filter f).head? = some b) : b ∈ l := by
  have hmem : b ∈ l.filter f := by
    cases hl : l.filter f with
    | nil => rw [hl] at h; simp at h
    | cons x xs =>
      rw [hl] at h
      rw [List.head?_cons] at h
      injection h with h2
      subst h2
      exact List.mem_cons_self _ _
  exact List.mem_of_mem_filter hmem

theorem dailyClose_pos {data : PriceData} {c : String} {d : ℕ} {pr : ℚ}
    (h : closesPos data) (hd : dailyClose data c d = some pr) : 0 < pr := by
  unfold dailyClose at hd
  cases hlk : data.lookup c with
  | none => rw [hlk] at hd; simp [barsOn] at hd
  | some df =>
    rw [hlk] at hd
    simp only [Option.getD_some] at hd
    cases hh : (barsOn df d).head? with
    | none => rw [hh] at hd; simp at hd
    | some bar =>
      rw [hh] at hd
      simp at hd
      obtain ⟨k, hk⟩ := mem_of_lookup hlk
      have hb : bar ∈ df := head?_filter_mem (f := fun b => decide (b.trade_date = d)) hh
      rw [← hd]
      exact h (k, df) hk bar hb

theorem foldl_inv {α β : Type _} {P : β → Prop} {f : β → α → β} {l : List α}
    (hs : ∀ b a, a ∈ l → P b → P (f b a)) : ∀ {b}, P b → P (l.foldl f b) := by
  induction l with
  | nil => intro b h; exact h
  | cons hd tl ih =>
    intro b h
    exact ih (fun b' a ha hb => hs b' a (List.mem_cons_of_mem _ ha) hb)
      (hs b hd (List.mem_cons_self _ _) h)

theorem snapshotEntries_ok {data : PriceData} {d : ℕ} {ps : List (String × ℤ)}
    (h : posOk ps) :
    ∀ e ∈ snapshotEntries data d ps, 0 ≤ e.shares ∧ e.shares % 100 = 0 := by
  unfold snapshotEntries
  refine foldl_inv
    (P := fun (acc : List PosEntry) => ∀ e ∈ acc, 0 ≤ e.shares ∧ e.shares % 100 = 0)
    (f := snapStep data d) ?_ ?_
  · intro acc p hp hacc e he
    unfold snapStep at he
    split at he
    · split at he
      next pr _ =>
        rcases List.mem_append.mp he with h1 | h2
        · exact hacc e h1
        · simp at h2
          rw [h2]
          exact h p hp
      next => exact hacc e he
    · exact hacc e he
  · intro e he
    simp at he

theorem maTrade_posOk {comm : ℚ} {d : ℕ} {code : String} {sig : ℤ} {price : ℚ}
    {st : SimState} (h : posOk st.positions) :
    posOk (maTrade comm d code sig price st).1.positions := by
  simp only [maTrade]
  split_ifs with h1 h2 h3
  · exact posOk_addPos h (le_of_lt h2) (maxShares100_mod _ _ _)
  · exact h
  · exact posOk_zeroPos h
  · exact h

theorem maTrade_cashOk {comm : ℚ} {d : ℕ} {code : String} {sig : ℤ} {price : ℚ}
    {st : SimState} (hst : stateOk st) (hp : 0 < price) (hc0 : 0 ≤ comm)
    (hc1 : comm < 1) : 0 ≤ (maTrade comm d code sig price st).1.cash := by
  obtain ⟨hcash, hpos⟩ := hst
  simp only [maTrade]
  split_ifs with h1 h2 h3
  · have hcost : (maxShares100 (st.cash * (95 / 100)) price comm : ℚ) *
        (price * (1 + comm)) ≤ st.cash * (95 / 100) :=
      maxShares100_cost_le (by linarith) hp hc0
    simp only
    rw [mul_assoc]
    linarith
  · exact hcash
  · have hs : 0 < ((st.positions.lookup code).getD 0 : ℚ) := by
      exact_mod_cast h3.2.1
    have hpr : 0 ≤ ((st.positions.lookup code).getD 0 : ℚ) * price * (1 - comm) := by
      have h1c : (0 : ℚ) ≤ 1 - comm := by linarith
      positivity
    simp only
    linarith
  · exact hcash

theorem maInstrStep_stateOk {fast slow : ℕ} {comm : ℚ} {data : PriceData} {d : ℕ}
    (hdata : closesPos data) (hc0 : 0 ≤ comm) (hc1 : comm < 1)
    {acc : SimState × List Txn} {p : String × List Bar} (hp : p ∈ data)
    (h : stateOk acc.1) : stateOk (maInstrStep fast slow comm d acc p).1 := by
  unfold maInstrStep
  cases hb : (barsOn p.2 d).head? with
  | none => exact h
  | some bar =>
    simp only
    split
    · exact h
    · have hbar : bar ∈ p.2 :=
        head?_filter_mem (f := fun b => decide (b.trade_date = d)) hb
      have hbp : 0 < bar.close := hdata p hp bar hbar
      exact ⟨maTrade_cashOk h hbp hc0 hc1, maTrade_posOk h.2⟩

theorem maInstrStep_posOk {fast slow : ℕ} {comm : ℚ} {d : ℕ}
    {acc : SimState × List Txn} {p : String × List Bar}
    (h : posOk acc.1.positions) :
    posOk (maInstrStep fast slow comm d acc p).1.positions := by
  unfold maInstrStep
  cases hb : (barsOn p.2 d).head? with
  | none => exact h
  | some bar =>
    simp only
    split
    · exact h
    · exact maTrade_posOk h

theorem maDay_cash {fast slow : ℕ} {comm : ℚ} {data : PriceData} {d : ℕ}
    (hdata : closesPos data) (hc0 : 0 ≤ comm) (hc1 : comm < 1)
    {acc : RunAcc} (h : runAccCash acc) :
    runAccCash (maDay fast slow comm data acc d) := by
  obtain ⟨hst, hsnaps⟩ := h
  have hst' : stateOk (data.foldl (maInstrStep fast slow comm d)
      (acc.st, ([] : List Txn))).1 :=
    foldl_inv (P := fun (x : SimState × List Txn) => stateOk x.1)
      (fun b a ha hb => maInstrStep_stateOk hdata hc0 hc1 ha hb) hst
  unfold maDay runAccCash
  refine ⟨hst', ?_⟩
  intro s hs
  rcases List.mem_append.mp hs with h1 | h2
  · exact hsnaps s h1
  · simp at h2
    rw [h2]
    exact hst'.1

theorem maDay_lots {fast slow : ℕ} {comm : ℚ} {data : PriceData} {d : ℕ}
    {acc : RunAcc} (h : runAccLots acc) :
    runAccLots (maDay fast slow comm data acc d) := by
  obtain ⟨hst, hsnaps⟩ := h
  have hst' : posOk (data.foldl (maInstrStep fast slow comm d)
      (acc.st, ([] : List Txn))).1.positions :=
    foldl_inv (P := fun (x : SimState × List Txn) => posOk x.1.positions)
      (fun b a _ hb => maInstrStep_posOk hb) hst
  unfold maDay runAccLots
  refine ⟨hst', ?_⟩
  intro s hs
  rcases List.mem_append.mp hs with h1 | h2
  · exact hsnaps s h1
  · simp at h2
    rw [h2]
    exact snapshotEntries_ok hst'

theorem sellAll_posOk {comm : ℚ} {data : PriceData} {d : ℕ} :
    ∀ (l : List (String × ℤ)) (acc : SimState × List Txn),
      posOk acc.1.positions → posOk (sellAll comm data d acc l).1.positions := by
  intro l
  induction l with
  | nil => intro acc h; exact h
  | cons hd tl ih =>
    intro acc h
    obtain ⟨c, s⟩ := hd
    simp only [sellAll]
    split
    · cases hdc : dailyClose data c d with
      | none => exact ih acc h
      | some pr => exact ih _ (posOk_zeroPos h)
    · exact ih acc h

theorem sellAll_cash {comm : ℚ} {data : PriceData} {d : ℕ}
    (hdata : closesPos data) (hc1 : comm ≤ 1) :
    ∀ (l : List (String × ℤ)) (acc : SimState × List Txn),
      0 ≤ acc.1.cash → 0 ≤ (sellAll comm data d acc l).1.cash := by
  intro l
  induction l with
  | nil => intro acc h; exact h
  | cons hd tl ih =>
    intro acc h
    obtain ⟨c, s⟩ := hd
    simp only [sellAll]
    split
    · cases hdc : dailyClose data c d with
      | none => exact ih acc h
      | some pr =>
        refine ih _ ?_
        have hpr : 0 < pr := dailyClose_pos hdata hdc
        have hs : (0 : ℚ) < (s : ℚ) := by exact_mod_cast (by assumption : 0 < s)
        have : 0 ≤ (s : ℚ) * pr * (1 - comm) := by
          have : (0 : ℚ) ≤ 1 - comm := by linarith
          positivity
        simp only
        linarith
    · exact ih acc h

theorem buyList_posOk {comm per : ℚ} {data : PriceData} {d : ℕ} :
    ∀ (l : List String) (acc : SimState × List Txn),
      posOk acc.1.positions → posOk (buyList comm per data d acc l).1.positions := by
  intro l
  induction l with
  | nil => intro acc h; exact h
  | cons c tl ih =>
    intro acc h
    simp only [buyList]
    cases hdc : dailyClose data c d with
    | none => exact ih acc h
    | some pr =>
      simp only
      split
      · exact ih _ (posOk_addPos h (by omega) (maxShares100_mod _ _ _))
      · exact ih acc h

theorem buyList_cash_lb {comm per : ℚ} {data : PriceData} {d : ℕ}
    (hdata : closesPos data) (hc0 : 0 ≤ comm) (hper : 0 ≤ per) :
    ∀ (l : List String) (acc : SimState × List Txn),
      acc.1.cash - l.length * (per * (99 / 100)) ≤
        (buyList comm per data d acc l).1.cash := by
  intro l
  induction l with
  | nil => intro acc; simp [buyList]
  | cons c tl ih =>
    intro acc
    have hk : 0 ≤ per * (99 / 100) := by positivity
    simp only [buyList]
    cases hdc : dailyClose data c d with
    | none =>
      have := ih acc
      simp only [List.length_cons]
      push_cast
      push_cast at this
      linarith
    | some pr =>
      simp only
      split
      · rename_i hms
        have hpr : 0 < pr := dailyClose_pos hdata hdc
        have hcost : (maxShares100 (per * (99 / 100)) pr comm : ℚ) *
            (pr * (1 + comm)) ≤ per * (99 / 100) :=
          maxShares100_cost_le hk hpr hc0
        have := ih (⟨acc.1.cash - (maxShares100 (per * (99 / 100)) pr comm : ℚ) *
            pr * (1 + comm), addPos acc.1.positions c
            (maxShares100 (per * (99 / 100)) pr comm)⟩,
          acc.2 ++ [⟨d, c, .buyAct, pr, maxShares100 (per * (99 / 100)) pr comm,
            (maxShares100 (per * (99 / 100)) pr comm : ℚ) * pr,
            (maxShares100 (per * (99 / 100)) pr comm : ℚ) * pr * comm⟩])
        simp only at this
        simp only [List.length_cons]
        push_cast
        rw [← mul_assoc] at hcost
        linarith
      · have := ih acc
        simp only [List.length_cons]
        push_cast
        push_cast at this
        linarith

theorem rebalanceStep_stateOk {comm : ℚ} {data : PriceData} {d : ℕ}
    {sel : List String} {st : SimState} (hdata : closesPos data)
    (hc0 : 0 ≤ comm) (hc1 : comm < 1) (hst : stateOk st) :
    stateOk (rebalanceStep comm data d sel st).1 := by
  simp only [rebalanceStep]
  set r := sellAll comm data d (st, []) st.positions with hrdef
  have hr1 : 0 ≤ r.1.cash := sellAll_cash hdata (le_of_lt hc1) _ _ hst.1
  have hr2 : posOk r.1.positions := sellAll_posOk _ _ hst.2
  split
  · exact ⟨hr1, hr2⟩
  · rename_i hne
    have hne2 : sel ≠ [] := by
      intro hh
      rw [hh] at hne
      simp at hne
    have hn : (0 : ℚ) < (sel.length : ℚ) := by
      exact_mod_cast List.length_pos.mpr hne2
    have hper : 0 ≤ r.1.cash / (sel.length : ℚ) := div_nonneg hr1 hn.le
    have hlb : r.1.cash - (sel.length : ℚ) *
        (r.1.cash / (sel.length : ℚ) * (99 / 100)) ≤
        (buyList comm (r.1.cash / (sel.length : ℚ)) data d r sel).1.cash :=
      buyList_cash_lb hdata hc0 hper sel r
    have heq : (sel.length : ℚ) * (r.1.cash / (sel.length : ℚ) * (99 / 100)) =
        r.1.cash * (99 / 100) := by
      field_simp
      ring
    constructor
    · linarith
    · exact buyList_posOk _ _ hr2

theorem rebalanceStep_posOk {comm : ℚ} {data : PriceData} {d : ℕ}
    {sel : List String} {st : SimState} (hst : posOk st.positions) :
    posOk (rebalanceStep comm data d sel st).1.positions := by
  unfold rebalanceStep
  have hr2 : posOk (sellAll comm data d (st, []) st.positions).1.positions :=
    sellAll_posOk _ _ hst
  split
  · exact hr2
  · exact buyList_posOk _ _ hr2

theorem rebDay_cash {period : ℕ} {comm : ℚ} {data : PriceData}
    {select : ℕ → List String} {d : ℕ} (hdata : closesPos data)
    (hc0 : 0 ≤ comm) (hc1 : comm < 1) {acc : RebAcc} (h : rebAccCash acc) :
    rebAccCash (rebDay period comm data select acc d) := by
  obtain ⟨hst, hsnaps⟩ := h
  simp only [rebDay, rebAccCash]
  split_ifs with hnr
  · have hst' : stateOk (rebalanceStep comm data d (select d) acc.st).1 :=
      rebalanceStep_stateOk hdata hc0 hc1 hst
    refine ⟨hst', ?_⟩
    intro s hs
    rcases List.mem_append.mp hs with h1 | h2
    · exact hsnaps s h1
    · simp at h2
      rw [h2]
      exact hst'.1
  · refine ⟨hst, ?_⟩
    intro s hs
    rcases List.mem_append.mp hs with h1 | h2
    · exact hsnaps s h1
    · simp at h2
      rw [h2]
      exact hst.1

theorem rebDay_lots {period : ℕ} {comm : ℚ} {data : PriceData}
    {select : ℕ → List String} {d : ℕ} {acc : RebAcc} (h : rebAccLots acc) :
    rebAccLots (rebDay period comm data select acc d) := by
  obtain ⟨hst, hsnaps⟩ := h
  simp only [rebDay, rebAccLots]
  split_ifs with hnr
  · have hst' : posOk (rebalanceStep comm data d (select d) acc.st).1.positions :=
      rebalanceStep_posOk hst
    refine ⟨hst', ?_⟩
    intro s hs
    rcases List.mem_append.mp hs with h1 | h2
    · exact hsnaps s h1
    · simp at h2
      rw [h2]
      exact snapshotEntries_ok hst'
  · refine ⟨hst, ?_⟩
    intro s hs
    rcases List.mem_append.mp hs with h1 | h2
    · exact hsnaps s h1
    · simp at h2
      rw [h2]
      exact snapshotEntries_ok hst

theorem momDay_cash {lookback topn holding : ℕ} {comm : ℚ} {data : PriceData}
    {d0 d : ℕ} (hdata : closesPos data) (hc0 : 0 ≤ comm) (hc1 : comm < 1)
    {acc : RebAcc} (h : rebAccCash acc) :
    rebAccCash (momDay lookback topn holding comm data d0 acc d) := by
  unfold momDay
  split
  · exact h
  · exact rebDay_cash hdata hc0 hc1 h

theorem momDay_lots {lookback topn holding : ℕ} {comm : ℚ} {data : PriceData}
    {d0 d : ℕ} {acc : RebAcc} (h : rebAccLots acc) :
    rebAccLots (momDay lookback topn holding comm data d0 acc d) := by
  unfold momDay
  split
  · exact h
  · exact rebDay_lots h

theorem sellAll_txns {comm : ℚ} {data : PriceData} {d : ℕ} :
    ∀ (l : List (String × ℤ)) (acc : SimState × List Txn) (t : Txn),
      t ∈ (sellAll comm data d acc l).2 → t ∈ acc.2 ∨ t.date = d := by
  intro l
  induction l with
  | nil => intro acc t ht; exact Or.inl ht
  | cons hd tl ih =>
    intro acc t ht
    obtain ⟨c, s⟩ := hd
    simp only [sellAll] at ht
    split at ht
    · cases hdc : dailyClose data c d with
      | none =>
        rw [hdc] at ht
        exact ih acc t ht
      | some pr =>
        rw [hdc] at ht
        rcases ih _ t ht with h1 | h2
        · rcases List.mem_append.mp h1 with h3 | h4
          · exact Or.inl h3
          · simp at h4
            rw [h4]
            exact Or.inr rfl
        · exact Or.inr h2
    · exact ih acc t ht

theorem buyList_txns {comm per : ℚ} {data : PriceData} {d : ℕ} :
    ∀ (l : List String) (acc : SimState × List Txn) (t : Txn),
      t ∈ (buyList comm per data d acc l).2 → t ∈ acc.2 ∨ t.date = d := by
  intro l
  induction l with
  | nil => intro acc t ht; exact Or.inl ht
  | cons c tl ih =>
    intro acc t ht
    simp only [buyList] at ht
    cases hdc : dailyClose data c d with
    | none =>
      rw [hdc] at ht
      exact ih acc t ht
    | some pr =>
      rw [hdc] at ht
      simp only at ht
      split at ht
      · rcases ih _ t ht with h1 | h2
        · rcases List.mem_append.mp h1 with h3 | h4
          · exact Or.inl h3
          · simp at h4
            rw [h4]
            exact Or.inr rfl
        · exact Or.inr h2
      · exact ih acc t ht

theorem rebalanceStep_txns {comm : ℚ} {data : PriceData} {d : ℕ}
    {sel : List String} {st : SimState} {t : Txn}
    (ht : t ∈ (rebalanceStep comm data d sel st).2) : t.date = d := by
  simp only [rebalanceStep] at ht
  split at ht
  · rcases sellAll_txns _ _ _ ht with h1 | h2
    · simp at h1
    · exact h2
  · rcases buyList_txns _ _ _ ht with h1 | h2
    · rcases sellAll_txns _ _ _ h1 with h3 | h4
      · simp at h3
      · exact h4
    · exact h2

theorem momDay_txLater {lookback topn holding : ℕ} {comm : ℚ} {data : PriceData}
    {d0 d : ℕ} {acc : RebAcc} (h : rebAccTxLater d0 acc) :
    rebAccTxLater d0 (momDay lookback topn holding comm data d0 acc d) := by
  unfold momDay
  split
  · exact h
  · rename_i hd0
    have hd0' : d0 ≤ d := Nat.le_of_not_lt hd0
    simp only [rebDay, rebAccTxLater]
    split_ifs with hnr
    · intro t ht
      rcases List.mem_append.mp ht with h1 | h2
      · exact h t h1
      · rw [rebalanceStep_txns h2]
        exact hd0'
    · intro t ht
      rcases List.mem_append.mp ht with h1 | h2
      · exact h t h1
      · simp at h2

theorem maRun_cash {fast slow : ℕ} {data : PriceData} {cap comm : ℚ}
    (hdata : closesPos data) (hcap : 0 ≤ cap) (hc0 : 0 ≤ comm) (hc1 : comm < 1) :
    snapsCashOk (maRunBacktest fast slow data cap comm) := by
  unfold maRunBacktest
  split
  · trivial
  · have hinv : runAccCash ((allDates data).foldl (maDay fast slow comm data)
        ⟨⟨cap, []⟩, [], [], []⟩) :=
      foldl_inv (fun b a _ hb => maDay_cash hdata hc0 hc1 hb)
        ⟨⟨hcap, posOk_nil⟩, by intro s hs; simp at hs⟩
    exact fun s hs => hinv.2 s hs

theorem maRun_lots {fast slow : ℕ} {data : PriceData} {cap comm : ℚ} :
    snapsLotsOk (maRunBacktest fast slow data cap comm) := by
  unfold maRunBacktest
  split
  · trivial
  · have hinv : runAccLots ((allDates data).foldl (maDay fast slow comm data)
        ⟨⟨cap, []⟩, [], [], []⟩) :=
      foldl_inv (fun b a _ hb => maDay_lots hb)
        ⟨posOk_nil, by intro s hs; simp at hs⟩
    exact fun s hs => hinv.2 s hs

theorem momRun_cash {lookback topn holding : ℕ} {data : PriceData} {cap comm : ℚ}
    (hdata : closesPos data) (hcap : 0 ≤ cap) (hc0 : 0 ≤ comm) (hc1 : comm < 1) :
    snapsCashOk (momRunBacktest lookback topn holding data cap comm) := by
  unfold momRunBacktest
  split
  · trivial
  · cases hfs : findStartDate lookback data with
    | none => trivial
    | some d0 =>
      have hinv : rebAccCash ((allDates data).foldl
          (momDay lookback topn holding comm data d0) ⟨⟨cap, []⟩, none, [], [], []⟩) :=
        foldl_inv (fun b a _ hb => momDay_cash hdata hc0 hc1 hb)
          ⟨⟨hcap, posOk_nil⟩, by intro s hs; simp at hs⟩
      exact fun s hs => hinv.2 s hs

theorem momRun_lots {lookback topn holding : ℕ} {data : PriceData} {cap comm : ℚ} :
    snapsLotsOk (momRunBacktest lookback topn holding data cap comm) := by
  unfold momRunBacktest
  split
  · trivial
  · cases hfs : findStartDate lookback data with
    | none => trivial
    | some d0 =>
      have hinv : rebAccLots ((allDates data).foldl
          (momDay lookback topn holding comm data d0) ⟨⟨cap, []⟩, none, [], [], []⟩) :=
        foldl_inv (fun b a _ hb => momDay_lots hb)
          ⟨posOk_nil, by intro s hs; simp at hs⟩
      exact fun s hs => hinv.2 s hs

theorem valRun_cash {period : ℕ} {maxPe maxPb : ℚ} {peF pbF : String → ℚ}
    {data : PriceData} {cap comm : ℚ} (hdata : closesPos data) (hcap : 0 ≤ cap)
    (hc0 : 0 ≤ comm) (hc1 : comm < 1) :
    snapsCashOk (valRunBacktest maxPe maxPb peF pbF period data cap comm) := by
  unfold valRunBacktest
  split
  · trivial
  · have hinv : rebAccCash ((allDates data).foldl
        (rebDay period comm data (valSelect maxPe maxPb peF pbF data))
        ⟨⟨cap, []⟩, none, [], [], []⟩) :=
      foldl_inv (fun b a _ hb => rebDay_cash hdata hc0 hc1 hb)
        ⟨⟨hcap, posOk_nil⟩, by intro s hs; simp at hs⟩
    exact fun s hs => hinv.2 s hs

theorem valRun_lots {period : ℕ} {maxPe maxPb : ℚ} {peF pbF : String → ℚ}
    {data : PriceData} {cap comm : ℚ} :
    snapsLotsOk (valRunBacktest maxPe maxPb peF pbF period data cap comm) := by
  unfold valRunBacktest
  split
  · trivial
  · have hinv : rebAccLots ((allDates data).foldl
        (rebDay period comm data (valSelect maxPe maxPb peF pbF data))
        ⟨⟨cap, []⟩, none, [], [], []⟩) :=
      foldl_inv (fun b a _ hb => rebDay_lots hb)
        ⟨posOk_nil, by intro s hs; simp at hs⟩
    exact fun s hs => hinv.2 s hs

/-- C1 (amended): on price data whose close prices are all positive, with
initial capital ≥ 0 and commission rate in [0,1), every one of the three
strategies keeps cash ≥ 0 after every simulated date (in particular in
every recorded position snapshot), and a single-signal buy never debits
more cash than is available. -/
theorem backtest_cash_nonneg_for_positive_prices
    (fast slow lookback topn holding period : ℕ) (maxPe maxPb : ℚ)
    (peF pbF : String → ℚ) (data : PriceData) (cap comm : ℚ)
    (hdata : closesPos data) (hcap : 0 ≤ cap) (hc0 : 0 ≤ comm) (hc1 : comm < 1) :
    snapsCashOk (maRunBacktest fast slow data cap comm) ∧
    snapsCashOk (momRunBacktest lookback topn holding data cap comm) ∧
    snapsCashOk (valRunBacktest maxPe maxPb peF pbF period data cap comm) ∧
    (∀ c p k : ℚ, 0 ≤ c → 0 < p → 0 ≤ k →
      (maxShares100 (c * (95 / 100)) p k : ℚ) * (p * (1 + k)) ≤ c) := by
  refine ⟨maRun_cash hdata hcap hc0 hc1, momRun_cash hdata hcap hc0 hc1,
    valRun_cash hdata hcap hc0 hc1, ?_⟩
  intro c p k hc hp hk
  have h1 : (maxShares100 (c * (95 / 100)) p k : ℚ) * (p * (1 + k)) ≤
      c * (95 / 100) :=
    maxShares100_cost_le (by positivity) hp hk
  linarith

/-- Witness for C1: a concrete positive-price run satisfying all the
hypotheses. -/
theorem backtest_cash_nonneg_for_positive_prices_witness :
    closesPos wData ∧ (0 : ℚ) ≤ 1000 ∧ (0 : ℚ) ≤ 3 / 10000 ∧ (3 / 10000 : ℚ) < 1 ∧
    snapsCashOk (maRunBacktest 5 20 wData 1000 (3 / 10000)) ∧
    snapsCashOk (momRunBacktest 20 5 10 wData 1000 (3 / 10000)) ∧
    snapsCashOk (valRunBacktest 15 (3 / 2) (fun _ => 10) (fun _ => 1) 20 wData
      1000 (3 / 10000)) := by
  have hdata : closesPos wData := by
    intro p hp b hb
    simp only [wData, List.mem_singleton] at hp
    subst hp
    simp only [List.mem_singleton] at hb
    subst hb
    norm_num
  obtain ⟨h1, h2, h3, _⟩ :=
    backtest_cash_nonneg_for_positive_prices 5 20 20 5 10 20 15 (3 / 2)
      (fun _ => 10) (fun _ => 1) wData 1000 (3 / 10000) hdata (by norm_num)
      (by norm_num) (by norm_num)
  exact ⟨hdata, by norm_num, by norm_num, by norm_num, h1, h2, h3⟩

/-- C9: in every run of any of the three strategies, every share count in
every recorded position snapshot is a non-negative multiple of 100. -/
theorem positions_lot_multiples (fast slow lookback topn holding period : ℕ)
    (maxPe maxPb : ℚ) (peF pbF : String → ℚ) (data : PriceData) (cap comm : ℚ) :
    snapsLotsOk (maRunBacktest fast slow data cap comm) ∧
    snapsLotsOk (momRunBacktest lookback topn holding data cap comm) ∧
    snapsLotsOk (valRunBacktest maxPe maxPb peF pbF period data cap comm) :=
  ⟨maRun_lots, momRun_lots, valRun_lots⟩

/-- C5: each of the three strategies answers an empty price-data mapping
with the dict holding only the error message. -/
theorem empty_data_returns_error_only (fast slow lookback topn holding period : ℕ)
    (maxPe maxPb : ℚ) (peF pbF : String → ℚ) (cap comm : ℚ) :
    maRunBacktest fast slow [] cap comm = .err errNoData ∧
    momRunBacktest lookback topn holding [] cap comm = .err errNoData ∧
    valRunBacktest maxPe maxPb peF pbF period [] cap comm = .err errNoData :=
  ⟨rfl, rfl, rfl⟩

/-- C4: on non-empty data, momentum either reports the missing-history
error (when no date has enough lookback history for every instrument) or
trades only from the first sufficient date onward. -/
theorem momentum_insufficient_history (lookback topn holding : ℕ)
    (data : PriceData) (cap comm : ℚ) (hne : data ≠ []) :
    (findStartDate lookback data = none →
      momRunBacktest lookback topn holding data cap comm = .err errInsufficient) ∧
    (∀ d0, findStartDate lookback data = some d0 →
      momOkAfter (momRunBacktest lookback topn holding data cap comm) d0) := by
  have hie : data.isEmpty = false := by
    cases data
    · exact absurd rfl hne
    · rfl
  constructor
  · intro hfs
    simp [momRunBacktest, hie, hfs]
  · intro d0 hfs
    have hinv : rebAccTxLater d0 ((allDates data).foldl
        (momDay lookback topn holding comm data d0) ⟨⟨cap, []⟩, none, [], [], []⟩) :=
      foldl_inv (fun b a _ hb => momDay_txLater hb) (by intro t ht; simp at ht)
    simp only [momRunBacktest, hie, Bool.false_eq_true, if_false, hfs]
    unfold momOkAfter finishRun
    refine ⟨_, rfl, ?_⟩
    intro t ht
    exact hinv t ht

/-- Witness for C4: a concrete one-instrument run whose start date is
found and whose transactions all fall on or after it. -/
theorem momentum_insufficient_history_witness :
    wData4 ≠ [] ∧ findStartDate 1 wData4 = some 5 ∧
    momOkAfter (momRunBacktest 1 1 10 wData4 1000 0) 5 := by
  have hne : wData4 ≠ [] := by simp [wData4]
  have hfs : findStartDate 1 wData4 = some 5 := by
    simp [findStartDate, allDates, wData4, sufficientOn, histTo, uniqSorted,
      List.mergeSort, List.find?]
  exact ⟨hne, hfs, (momentum_insufficient_history 1 1 10 wData4 1000 0 hne).2 5 hfs⟩

/-- C2: a single-signal buy at cash 100000, price 100 and commission
0.0003 acquires exactly 900 shares and leaves exactly 9973.0 in cash. -/
theorem single_signal_buy_scenario :
    maxShares100 ((100000 : ℚ) * (95 / 100)) 100 (3 / 10000) = 900 ∧
    (maTrade (3 / 10000) 0 "X" 1 100 ⟨100000, []⟩).1.cash = 9973 ∧
    (maTrade (3 / 10000) 0 "X" 1 100 ⟨100000, []⟩).2.map Txn.volume = [900] := by
  have hms : maxShares100 ((100000 : ℚ) * (95 / 100)) 100 (3 / 10000) = 900 := by
    norm_num [maxShares100, pyInt]
  refine ⟨hms, ?_, ?_⟩
  · simp only [maTrade, hms]
    norm_num
  · simp only [maTrade, hms]
    norm_num

/-- C3 (amended): where both moving averages are defined at bars i-1 and
i, the signal is BUY exactly on a strict crossing from < to >, SELL
exactly on a strict crossing from > to <, HOLD otherwise; and any bar
whose history is shorter than slow_period gets HOLD. -/
theorem ma_signal_strict_crossing (fast slow : ℕ) (closes : List ℚ) (i : ℕ)
    (hi : 1 ≤ i) (a b c d : ℚ)
    (hfp : rollingMean fast closes (i - 1) = some a)
    (hsp : rollingMean slow closes (i - 1) = some b)
    (hfc : rollingMean fast closes i = some c)
    (hsc : rollingMean slow closes i = some d) :
    maSignalAt fast slow closes i =
      (if a < b ∧ d < c then 1 else if b < a ∧ c < d then -1 else 0) ∧
    ∀ j : ℕ, j + 1 < slow → maSignalAt fast slow closes j = 0 := by
  constructor
  · have hi0 : ¬ i = 0 := by omega
    simp only [maSignalAt, if_neg hi0, hfp, hsp, hfc, hsc, optLt_some_some]
  · intro j hj
    unfold maSignalAt
    split
    · rfl
    · have hnone : rollingMean slow closes j = none := by
        unfold rollingMean
        rw [if_neg]
        intro hcon
        omega
      rw [hnone]
      rw [if_neg, if_neg]
      · intro hcon
        exact optLt_none_right _ hcon.2
      · intro hcon
        exact optLt_none_left _ hcon.2

/-- Witness for C3: a strict golden cross fires a BUY and short history
holds. -/
theorem ma_signal_strict_crossing_witness :
    maSignalAt 1 2 [10, 5, 20] 2 =
      (if (5 : ℚ) < 15 / 2 ∧ (25 / 2 : ℚ) < 20 then 1
        else if (15 / 2 : ℚ) < 5 ∧ (20 : ℚ) < 25 / 2 then -1 else 0) ∧
    ∀ j : ℕ, j + 1 < 2 → maSignalAt 1 2 [10, 5, 20] j = 0 :=
  ma_signal_strict_crossing 1 2 [10, 5, 20] 2 (by norm_num) 5 (15 / 2) 20 (25 / 2)
    (by norm_num [rollingMean]) (by norm_num [rollingMean])
    (by norm_num [rollingMean]) (by norm_num [rollingMean])

/-- Counterexample for C3 as stated: when the two moving averages are
equal at bar i-1 and the fast one is strictly above at bar i, the claimed
≤-to-> rule says BUY but the source emits HOLD. -/
theorem ma_signal_equal_ma_hold_cex :
    maSignalAt 1 2 [10, 10, 20] 2 = 0 ∧ maSignalSpec 1 2 [10, 10, 20] 2 = 1 := by
  constructor
  · norm_num [maSignalAt, rollingMean, optLt]
  · norm_num [maSignalSpec, rollingMean]

/-- C7 (amended): for a price list with at least two points and a nonzero
first price, `calculate_returns` returns (without raising) a non-empty
list whose first element is 0, each element the percent change of that
price relative to the first price. -/
theorem returns_first_zero_len2 (prices : List ℚ) (h2 : 2 ≤ prices.length)
    (hb : prices.head?.getD 0 ≠ 0) :
    ∃ l, calculateReturns prices = some l ∧ l ≠ [] ∧ l.head? = some 0 ∧
      ∀ i : ℕ, l[i]? = (prices[i]?).map
        (fun p => (p - prices.head?.getD 0) / prices.head?.getD 0 * 100) := by
  cases prices with
  | nil => simp at h2
  | cons p0 rest =>
    simp only [List.head?_cons, Option.getD_some] at hb ⊢
    refine ⟨(p0 :: rest).map (fun p => (p - p0) / p0 * 100), ?_, ?_, ?_, ?_⟩
    · unfold calculateReturns
      rw [if_neg (by omega : ¬ (p0 :: rest).length < 2)]
      simp only
      rw [if_neg hb]
    · simp
    · simp [div_self hb]
    · intro i
      cases i with
      | zero => simp
      | succ n => simp [List.getElem?_map]

/-- Witness for C7: the two-point list [10, 20]. -/
theorem returns_first_zero_len2_witness :
    ∃ l, calculateReturns [10, 20] = some l ∧ l ≠ [] ∧ l.head? = some 0 ∧
      ∀ i : ℕ, l[i]? = (([10, 20] : List ℚ)[i]?).map
        (fun p => (p - ([10, 20] : List ℚ).head?.getD 0) /
          ([10, 20] : List ℚ).head?.getD 0 * 100) :=
  returns_first_zero_len2 [10, 20] (by norm_num) (by norm_num)

/-- Counterexample for C7 as stated: a non-empty single-point list yields
the empty list, which has no element at index 0. -/
theorem returns_singleton_empty_cex :
    calculateReturns [5] = some [] ∧ ([5] : List ℚ) ≠ [] := by
  exact ⟨rfl, by simp⟩

theorem drawdownLoop_nonpos : ∀ (l : List ℚ) (maxP : ℚ), 0 < maxP →
    ∃ dl, drawdownLoop maxP l = some dl ∧ ∀ x ∈ dl, x ≤ 0 := by
  intro l
  induction l with
  | nil => intro maxP h; exact ⟨[], rfl, by simp⟩
  | cons p rest ih =>
    intro maxP h
    have hm : 0 < max maxP p := lt_of_lt_of_le h (le_max_left _ _)
    obtain ⟨dl, hdl, hall⟩ := ih (max maxP p) hm
    refine ⟨((p - max maxP p) / (max maxP p) * 100) :: dl, ?_, ?_⟩
    · simp only [drawdownLoop]
      rw [if_neg hm.ne', hdl]
    · intro x hx
      rcases List.mem_cons.mp hx with h1 | h2
      · have hple : p - max maxP p ≤ 0 := by
          have := le_max_right maxP p
          linarith
        have hdiv : (p - max maxP p) / (max maxP p) ≤ 0 :=
          div_nonpos_of_nonpos_of_nonneg hple hm.le
        rw [h1]
        linarith
      · exact hall x h2

/-- C8 (amended): for a price list whose first element is positive,
`calculate_drawdowns` returns (without raising) a list all of whose
elements are ≤ 0. -/
theorem drawdowns_nonpos_first_positive (p0 : ℚ) (rest : List ℚ) (h : 0 < p0) :
    ∃ l, calculateDrawdowns (p0 :: rest) = some l ∧ ∀ x ∈ l, x ≤ 0 := by
  unfold calculateDrawdowns
  split
  · exact ⟨[], rfl, by simp⟩
  · exact drawdownLoop_nonpos (p0 :: rest) p0 h

/-- Witness for C8: the list [10, 5, 20]. -/
theorem drawdowns_nonpos_first_positive_witness :
    ∃ l, calculateDrawdowns [10, 5, 20] = some l ∧ ∀ x ∈ l, x ≤ 0 :=
  drawdowns_nonpos_first_positive 10 [5, 20] (by norm_num)

/-- Counterexample for C8 as stated: with a negative running maximum the
percent difference turns positive — on [-10, -20] the second drawdown is
+100. -/
theorem drawdowns_positive_cex :
    calculateDrawdowns [-10, -20] = some [0, 100] ∧ ¬ ((100 : ℚ) ≤ 0) := by
  constructor
  · norm_num [calculateDrawdowns, drawdownLoop, max_def]
  · norm_num

/-- C10: with fewer than two return points the metrics function returns
the empty dict, benchmark or not, without raising. -/
theorem metrics_short_input_empty (returns : List ℚ) (bench : Option (List ℚ))
    (h : returns.length < 2) : calcPerformanceMetrics returns bench = some [] := by
  unfold calcPerformanceMetrics
  rw [if_pos h]

/-- Witness for C10: a one-point series with a benchmark supplied. -/
theorem metrics_short_input_empty_witness :
    ([5] : List ℚ).length < 2 ∧
    calcPerformanceMetrics [5] (some [1, 2]) = some [] :=
  ⟨by norm_num, metrics_short_input_empty [5] (some [1, 2]) (by norm_num)⟩

theorem dailyLoop_length : ∀ (xs : List ℚ) (prev : ℚ) (l : List ℚ),
    dailyLoop prev xs = some l → l.length = xs.length := by
  intro xs
  induction xs with
  | nil =>
    intro prev l h
    simp only [dailyLoop, Option.some.injEq] at h
    subst h
    rfl
  | cons x rest ih =>
    intro prev l h
    simp only [dailyLoop] at h
    split at h
    · exact absurd h (by simp)
    · cases hr : dailyLoop x rest with
      | none => rw [hr] at h; simp at h
      | some l2 =>
        rw [hr] at h
        simp only [Option.some.injEq] at h
        rw [← h]
        simp [ih x l2 hr]

/-- Evaluation of the volatility entry of the metrics dict: square root
of the population variance of the normalised daily deltas, times √252,
times 100. -/
theorem calcMetrics_volatility_eq (returns : List ℚ) (bench : Option (List ℚ))
    (dr dds : List ℚ) (h2 : 2 ≤ returns.length)
    (hdr : pyDailyReturns returns = some dr) (hdd : pyMddList returns = some dds) :
    getMetric (calcPerformanceMetrics returns bench) "volatility" =
      some (Real.sqrt ((varPop dr : ℚ) : ℝ) * Real.sqrt 252 * 100) := by
  have hlen : dr.length ≠ 0 := by
    cases returns with
    | nil => simp at h2
    | cons r rest =>
      have hl := dailyLoop_length rest r dr (by simpa [pyDailyReturns] using hdr)
      simp only [List.length_cons] at h2
      omega
  have hlt : ¬ returns.length < 2 := by omega
  cases bench with
  | none =>
    simp only [calcPerformanceMetrics, getMetric, hdr, hdd, if_neg hlt,
      if_pos hlen]
    rfl
  | some b =>
    simp only [calcPerformanceMetrics, getMetric, hdr, hdd, if_neg hlt,
      if_pos hlen]
    by_cases hb : b.length ≠ 0 ∧ b.length = returns.length
    · rw [if_pos hb]
      rfl
    · rw [if_neg hb]
      rfl

/-- C6 (amended): for every returns series of length ≥ 2 on which the
computation does not raise, the volatility metric is the standard
deviation of the NORMALISED day-over-day deltas
`(returns[i] - returns[i-1]) / (1 + returns[i-1]/100)`, annualized by
√252 and expressed as a percent. -/
theorem volatility_normalized_delta (returns : List ℚ) (bench : Option (List ℚ))
    (dr dds : List ℚ) (h2 : 2 ≤ returns.length)
    (hdr : pyDailyReturns returns = some dr) (hdd : pyMddList returns = some dds) :
    getMetric (calcPerformanceMetrics returns bench) "volatility" =
      some (Real.sqrt ((varPop dr : ℚ) : ℝ) * Real.sqrt 252 * 100) :=
  calcMetrics_volatility_eq returns bench dr dds h2 hdr hdd

/-- Witness for C6 at the series [0, 100, 200]. -/
theorem volatility_normalized_delta_witness :
    getMetric (calcPerformanceMetrics [0, 100, 200] none) "volatility" =
      some (Real.sqrt ((varPop [100, 50] : ℚ) : ℝ) * Real.sqrt 252 * 100) :=
  volatility_normalized_delta [0, 100, 200] none [100, 50] [0, 0, 0]
    (by norm_num) (by norm_num [pyDailyReturns, dailyLoop])
    (by norm_num [pyMddList, mddLoop, max_def])

/-- Counterexample for C6 as stated: on [0, 100, 200] the plain deltas
are [100, 100] (standard deviation 0), yet the source computes a strictly
positive volatility from the normalised deltas [100, 50]. -/
theorem volatility_not_plain_delta_cex :
    getMetric (calcPerformanceMetrics [0, 100, 200] none) "volatility" ≠
      some (volatilitySpec [0, 100, 200]) := by
  have h1 : getMetric (calcPerformanceMetrics [0, 100, 200] none) "volatility" =
      some (Real.sqrt ((varPop [100, 50] : ℚ) : ℝ) * Real.sqrt 252 * 100) :=
    calcMetrics_volatility_eq [0, 100, 200] none [100, 50] [0, 0, 0]
      (by norm_num) (by norm_num [pyDailyReturns, dailyLoop])
      (by norm_num [pyMddList, mddLoop, max_def])
  have hv1 : (varPop [100, 50] : ℚ) = 625 := by norm_num [varPop]
  have hv2 : volatilitySpec [0, 100, 200] = 0 := by
    unfold volatilitySpec
    have hz : (varPop (List.zipWith (fun a b => a - b)
        (([0, 100, 200] : List ℚ)).tail [0, 100, 200]) : ℚ) = 0 := by
      norm_num [varPop, List.zipWith]
    rw [hz]
    simp
  have h625 : ((625 : ℚ) : ℝ) = 625 := by norm_num
  have hsq : Real.sqrt ((625 : ℚ) : ℝ) = 25 := by
    rw [h625, show (625 : ℝ) = 25 ^ 2 by norm_num,
      Real.sqrt_sq (by norm_num : (0 : ℝ) ≤ 25)]
  have h252 : (0 : ℝ) < Real.sqrt 252 := Real.sqrt_pos.mpr (by norm_num)
  rw [h1, hv1, hv2, hsq]
  intro hcon
  have := Option.some.inj hcon
  nlinarith

set_option maxHeartbeats 2000000 in
/-- Counterexample for C1 as stated: on input data containing a negative
close price (initial capital 100000 ≥ 0, commission 0 ∈ [0,1)), the
MA-cross backtest records a position snapshot with cash -464000 < 0. -/
theorem backtest_cash_can_go_negative_cex :
    snapCashList (maRunBacktest 1 2 cexData 100000 0) =
      [100000, 100000, 6000, -464000] ∧ ((-464000 : ℚ) < 0) := by
  constructor
  · norm_num [snapCashList, maRunBacktest, cexData, allDates, uniqSorted,
      List.mergeSort, maDay, maInstrStep, maTrade, maSignalAt, rollingMean,
      optLt, maxShares100, pyInt, addPos, zeroPos, barsOn, histTo,
      dailyClose, portfolioValue, snapshotEntries, snapStep, List.foldl,
      List.filter, List.lookup, List.any, List.map, List.head?,
      List.isEmpty, Option.getD, List.take, List.drop, List.sum,
      List.length, List.getLast?]
  · norm_num
